import Mathlib

/-!
Verification of the heading-matching heuristic of `scripts/erc_link_updater.py`
(function `find_heading_for_item_name` and its helpers).

The matcher is a pure function of a label (`item_name`), an ordered list of
heading texts (already extracted from the document markup) and a score
threshold.  We embed it shallowly: Python strings become `String` processed as
`List Char`, the difflib `SequenceMatcher.ratio` becomes an explicit
matching-block computation over `ℚ`, and every stage of the Python function is
a Lean definition mirroring the corresponding block of the source.
-/

namespace ErcLinkUpdater

set_option maxRecDepth 1000000

/-- ASCII whitespace characters recognised by Python's `str.strip`, `\s`
regular-expression class and `str.split` (we restrict the model to ASCII
input). -/
def isPySpace (c : Char) : Bool :=
  c = ' ' || c = '\t' || c = '\n' || c = '\r' || c = '\x0b' || c = '\x0c'

/-- Python `str.lower` on a list of characters (ASCII). -/
def lowerChars (s : List Char) : List Char :=
  s.map Char.toLower

/-- Drop leading Python whitespace. -/
def dropLeadingWs (s : List Char) : List Char :=
  s.dropWhile isPySpace

/-- Python `str.strip()` on a character list: remove leading and trailing
whitespace. -/
def stripChars (s : List Char) : List Char :=
  ((s.dropWhile isPySpace).reverse.dropWhile isPySpace).reverse

/-- Python `str.strip()` on a `String`. -/
def pyStrip (s : String) : String :=
  String.mk (stripChars s.data)

/-- Python `str.lower()` on a `String` (ASCII). -/
def pyLower (s : String) : String :=
  String.mk (lowerChars s.data)

/-- `re.sub(r'\s+', ' ', s)`: collapse every maximal run of whitespace
characters to a single space. -/
def collapseWs : List Char → List Char
  | [] => []
  | [c] => [if isPySpace c then ' ' else c]
  | c1 :: c2 :: rest =>
      if isPySpace c1 && isPySpace c2 then collapseWs (c2 :: rest)
      else (if isPySpace c1 then ' ' else c1) :: collapseWs (c2 :: rest)

/-- `normalize(text)` from the source: `re.sub(r'\s+', ' ',
text.strip().lower())`. -/
def normalize (text : String) : String :=
  String.mk (collapseWs (lowerChars (stripChars text.data)))

/-- Python's substring test `p in s` on character lists (the empty list is a
sublist of everything, as in Python). -/
def strInChars : List Char → List Char → Bool
  | p, [] => p.isEmpty
  | p, c :: rest => p.isPrefixOf (c :: rest) || strInChars p rest

/-- Python's substring test `p in s` on `String`s. -/
def strIn (p s : String) : Bool :=
  strInChars p.data s.data

/-- A character of the `\w` regular-expression class (ASCII): letter, digit or
underscore. -/
def isWordChar (c : Char) : Bool :=
  c.isAlpha || c.isDigit || c = '_'

/-- Maximal runs of word characters of a character list, in order (the matches
of `\b\w+\b`). -/
def wordRuns (acc : List Char) : List Char → List (List Char)
  | [] => if acc.isEmpty then [] else [acc.reverse]
  | c :: rest =>
      if isWordChar c then wordRuns (c :: acc) rest
      else if acc.isEmpty then wordRuns [] rest
      else acc.reverse :: wordRuns [] rest

/-- `tokenize(text)` from the source: `set(re.findall(r'\b\w+\b',
text.lower()))`.  The Python set is modelled as a duplicate-free list (the
order is irrelevant: only membership and intersection size are used). -/
def tokenize (text : String) : List String :=
  ((wordRuns [] (lowerChars text.data)).map String.mk).dedup

/-- Length of the longest common prefix of two character lists. -/
def commonPrefixLen : List Char → List Char → Nat
  | a :: as, b :: bs => if a = b then commonPrefixLen as bs + 1 else 0
  | _, _ => 0

/-- `difflib.SequenceMatcher.find_longest_match` over whole sequences, with no
junk (the inputs here are far below the autojunk limit).  Returns
`(size, i, j)`: the longest block `a[i:i+size] = b[j:j+size]`, with the
smallest `i` and then the smallest `j` among blocks of maximal size. -/
def findLongestMatch (a b : List Char) : Nat × Nat × Nat :=
  (List.range a.length).foldl
    (fun best i =>
      (List.range b.length).foldl
        (fun best j =>
          let k := commonPrefixLen (a.drop i) (b.drop j)
          if best.1 < k then (k, i, j) else best)
        best)
    (0, 0, 0)

/-- Total size of the matching blocks of `difflib.SequenceMatcher`
(`sum(size for _, _, size in get_matching_blocks())`): recursively take the
longest match and recurse on the parts to its left and to its right.  The
fuel argument bounds the recursion depth; `a.length + b.length` is always
sufficient since every recursive call strictly decreases that sum. -/
def matchingTotal : Nat → List Char → List Char → Nat
  | 0, _, _ => 0
  | n + 1, a, b =>
      let r := findLongestMatch a b
      if r.1 = 0 then 0
      else
        matchingTotal n (a.take r.2.1) (b.take r.2.2) + r.1 +
          matchingTotal n (a.drop (r.2.1 + r.1)) (b.drop (r.2.2 + r.1))

/-- `similarity_ratio(a, b)` from the source: `SequenceMatcher(None, a,
b).ratio()`, i.e. `2 * M / (len(a) + len(b))` where `M` is the total size of
the matching blocks (and `1` when both strings are empty, as in difflib). -/
def similarityRatio (sa sb : String) : ℚ :=
  let a := sa.data
  let b := sb.data
  if a.length + b.length = 0 then 1
  else (2 * (matchingTotal (a.length + b.length) a b) : ℚ) / ((a.length + b.length : ℕ) : ℚ)

/-- The hard-coded `element_mappings` table of the source (insertion order of
the Python dict preserved). -/
def elementMappings : List (String × List String) :=
  [("ACTAMT", ["Actual Amount", "Amount", "E0774"]),
   ("CS_NONPROF_ASSET", ["Fund Code", "Asset", "E0316"]),
   ("CS_NONPROF_FUNC", ["Function Code", "Function", "E0317"]),
   ("CS_NONPROF_OBJ", ["Object Code", "Object", "E0318"]),
   ("CS_NONPROF_PGMIN", ["Program Intent Code", "Program Intent", "E0320"]),
   ("DATE_UPDATE", ["Date Update", "Update Date"]),
   ("DISTRICT", ["District ID", "District", "E0212"]),
   ("DTUPDATE", ["Date Update", "TEA Update"]),
   ("FIN_UNIT", ["Organization Code", "Org Code", "E0319"]),
   ("FISCALYR", ["Fiscal Year", "Year", "E0974"])]

/-- Python's `item_name in element_mappings` plus `element_mappings[item_name]`:
the synonym list of a label that is exactly one of the ten keys. -/
def lookupMapping (itemName : String) : Option (List String) :=
  (elementMappings.find? (fun p => p.1 == itemName)).map (fun p => p.2)

/-- The hard-coded `variable_keywords` table of stage 5 of the source. -/
def variableKeywords : List (String × List String) :=
  [("DISTRICT", ["district", "id"]),
   ("DATE", ["date", "update"]),
   ("FUNC", ["function", "code"]),
   ("OBJ", ["object", "code"]),
   ("ASSET", ["fund", "code"]),
   ("PGMIN", ["program", "intent"]),
   ("AMT", ["amount", "actual"]),
   ("FISCALYR", ["fiscal", "year"]),
   ("FIN_UNIT", ["organization", "code", "org"])]

/-- `re.search(r'E\d+', s)`: the leftmost occurrence of the letter `E`
followed by a maximal nonempty run of digits, if any. -/
def eNumberChars : List Char → Option (List Char)
  | [] => none
  | c :: rest =>
      if c = 'E' then
        match rest with
        | d :: _ =>
            if d.isDigit then some ('E' :: rest.takeWhile Char.isDigit)
            else eNumberChars rest
        | [] => none
      else eNumberChars rest

/-- The `E`-number extracted from a string (`re.search(r'E\d+', ...)`). -/
def eNumberOf (s : String) : Option String :=
  (eNumberChars s.data).map String.mk

/-- Whether a string contains an `E`-number (`re.search(r'E\d+', ...)` used as
a truth value). -/
def hasENumber (s : String) : Bool :=
  (eNumberOf s).isSome

/-- `re.split(r'_', s)` / `s.split('_')`: split on single underscores, keeping
empty segments. -/
def splitUnderscore (s : String) : List String :=
  (s.data.splitOn '_').map String.mk

/-- The group captured by `re.search(r'[–—\-]\s*(.*)', heading_text)`: the text
after the first dash character (en dash, em dash or hyphen), with leading
whitespace skipped, up to the next newline; `none` when the heading has no
dash. -/
def afterDash : List Char → Option (List Char)
  | [] => none
  | c :: rest =>
      if c = '–' || c = '—' || c = '-' then
        some ((rest.dropWhile isPySpace).takeWhile (fun d => !(d = '\n')))
      else afterDash rest

/-- Stage 0 of `find_heading_for_item_name` (direct mapping): if the label is
one of the ten `element_mappings` keys, scan the synonyms in table order and,
for each, the headings in document order; return the first heading whose
lowercased text contains the lowercased synonym. -/
def mappingStage (itemName : String) (texts : List String) : Option String :=
  match lookupMapping itemName with
  | none => none
  | some pms => firstHit pms
where
  firstHit : List String → Option String
    | [] => none
    | pm :: rest =>
        match texts.find? (fun t => strIn (pyLower pm) (pyLower t)) with
        | some t => some t
        | none => firstHit rest

/-- Stage 1 (exact match): the first heading whose normalized text contains the
normalized label as a substring. -/
def exactStage (itemName : String) (texts : List String) : Option String :=
  texts.find? (fun t => strIn (normalize itemName) (normalize t))

/-- Stage 2 (E-number match): if the label contains an `E`-number, the first
heading whose raw text contains it. -/
def eNumberStage (itemName : String) (texts : List String) : Option String :=
  match eNumberOf itemName with
  | none => none
  | some en => texts.find? (fun t => strIn en t)

/-- Stage 3 (part after a dash): for each underscore-delimited part of the
label of length at least 3, in order, the first heading whose text after its
first dash contains the lowercased part. -/
def dashPartStage (itemName : String) (texts : List String) : Option String :=
  firstHit (splitUnderscore itemName)
where
  firstHit : List String → Option String
    | [] => none
    | part :: rest =>
        if 3 ≤ part.length then
          match texts.find? (fun t =>
              match afterDash t.data with
              | some g => strInChars (lowerChars part.data) (lowerChars g)
              | none => false) with
          | some t => some t
          | none => firstHit rest
        else firstHit rest

/-- Stage 4 (significant parts): if the label contains an underscore, the first
heading whose normalized text contains the normalization of some part of the
label of length at least 3. -/
def partsStage (itemName : String) (texts : List String) : Option String :=
  if itemName.data.contains '_' then
    let significantParts := (splitUnderscore itemName).filter (fun p => 3 ≤ p.length)
    texts.find? (fun t => significantParts.any (fun p => strIn (normalize p) (normalize t)))
  else none

/-- Stage 5 (semantic keywords): for each `variable_keywords` entry in table
order whose keyword occurs in the raw label, the first heading whose
normalized text contains one of the related terms. -/
def semanticStage (itemName : String) (texts : List String) : Option String :=
  firstHit variableKeywords
where
  firstHit : List (String × List String) → Option String
    | [] => none
    | (kw, terms) :: rest =>
        if strIn kw itemName then
          match texts.find? (fun t => terms.any (fun term => strIn term (normalize t))) with
          | some t => some t
          | none => firstHit rest
        else firstHit rest

/-- Stages 0–5 of `find_heading_for_item_name`, in source order with early
return (the first stage producing a heading wins). -/
def preStages (itemName : String) (texts : List String) : Option String :=
  (mappingStage itemName texts).orElse fun _ =>
  (exactStage itemName texts).orElse fun _ =>
  (eNumberStage itemName texts).orElse fun _ =>
  (dashPartStage itemName texts).orElse fun _ =>
  (partsStage itemName texts).orElse fun _ =>
  semanticStage itemName texts

/-- The weighted score of stage 6 for one heading text: `overlap * 0.3 +
ratio * 0.3 + contains_bonus + e_number_bonus` exactly as in the source. -/
def weightedScore (itemName : String) (t : String) : ℚ :=
  let itemTokens := tokenize itemName
  let headingTokens := tokenize t
  let overlap : ℚ :=
    if 0 < itemTokens.length then
      ((itemTokens.filter (fun tk => headingTokens.contains tk)).length : ℚ) /
        (itemTokens.length : ℚ)
    else 0
  let ratio := similarityRatio (normalize itemName) (normalize t)
  let containsBonus : ℚ := if strIn (normalize itemName) (normalize t) then 3/10 else 0
  let eNumberBonus : ℚ :=
    match eNumberOf itemName with
    | some en => if strIn en t then 1/5 else 0
    | none => 0
  overlap * (3/10) + ratio * (3/10) + containsBonus + eNumberBonus

/-- Eligibility of a heading for stage 6: its normalized text has at least 5
characters and it has at least one word token (the two `continue` guards of
the scoring loop). -/
def eligible (t : String) : Bool :=
  5 ≤ (normalize t).length && !(tokenize t).isEmpty

/-- One step of the stage-6 scan: skip ineligible headings, and replace the
running best only on a strictly greater score. -/
def bestStep (itemName : String) (acc : ℚ × Option String) (t : String) : ℚ × Option String :=
  if eligible t then
    let score := weightedScore itemName t
    if acc.1 < score then (score, some t) else acc
  else acc

/-- The stage-6 scan over all headings: the best score and best heading,
starting from score `0` and no heading. -/
def weightedBest (itemName : String) (texts : List String) : ℚ × Option String :=
  texts.foldl (bestStep itemName) (0, none)

/-- The last-resort fallback of the source: the first heading whose raw text
contains an `E`-number, if any. -/
def eNumberFallback (texts : List String) : Option String :=
  texts.find? hasENumber

/-- Stage 6 of `find_heading_for_item_name` (token-based weighted scoring):
return `none` when the label has no tokens; otherwise return the best-scoring
heading when one was recorded (nonempty, as Python tests its truthiness) and
its score reaches the threshold, and the `E`-number fallback otherwise. -/
def weightedStage (itemName : String) (texts : List String) (scoreThreshold : ℚ) :
    Option String :=
  if (tokenize itemName).isEmpty then none
  else
    let best := weightedBest itemName texts
    if (best.2.any (fun bm => !bm.isEmpty)) && scoreThreshold ≤ best.1 then best.2
    else eNumberFallback texts

/-- `find_heading_for_item_name(content, item_name, score_threshold)` from the
source, with the headings already extracted from the markup (the function
itself only ever uses `heading.get_text().strip()` of each heading element,
which is the `pyStrip` below). -/
def findHeadingForItemName (itemName : String) (headings : List String)
    (scoreThreshold : ℚ) : Option String :=
  let texts := headings.map pyStrip
  (preStages itemName texts).orElse fun _ => weightedStage itemName texts scoreThreshold

/-- The maximum stage-6 score over the eligible headings (`0` when there is no
eligible heading): the value that the running `best_score` of the source
reaches at the end of the scan. -/
def maxWeightedScore (itemName : String) : List String → ℚ
  | [] => 0
  | t :: rest =>
      if eligible t then max (weightedScore itemName t) (maxWeightedScore itemName rest)
      else maxWeightedScore itemName rest

/-! ### Helper lemmas -/

theorem strInChars_nil_left : ∀ l : List Char, strInChars [] l = true
  | [] => rfl
  | _ :: rest => by simp [strInChars, List.isPrefixOf]

theorem strIn_empty_left (s : String) : strIn "" s = true :=
  strInChars_nil_left s.data

theorem lookupMapping_eq_none (itemName : String)
    (h : itemName ∉ elementMappings.map Prod.fst) : lookupMapping itemName = none := by
  unfold lookupMapping
  rw [List.find?_eq_none.mpr]
  · rfl
  · intro p hp hbeq
    exact h (List.mem_map.mpr ⟨p, hp, eq_of_beq hbeq⟩)

theorem lookupMapping_eq_none_of_eNumber (itemName : String) (en : String)
    (h : eNumberOf itemName = some en) : lookupMapping itemName = none := by
  apply lookupMapping_eq_none
  intro hmem
  have hs : (eNumberOf itemName).isSome = true := by rw [h]; rfl
  rw [List.mem_map] at hmem
  obtain ⟨p, hp, hfst⟩ := hmem
  simp only [elementMappings, List.mem_cons, List.not_mem_nil, or_false] at hp
  rcases hp with h1 | h1 | h1 | h1 | h1 | h1 | h1 | h1 | h1 | h1 <;>
    (subst h1; rw [← hfst] at hs; exact absurd hs (by decide))

theorem mappingStage_firstHit_nil :
    ∀ pms : List String, mappingStage.firstHit [] pms = none := by
  intro pms
  induction pms with
  | nil => rfl
  | cons pm rest ih => simpa [mappingStage.firstHit, List.find?] using ih

theorem mappingStage_nil (itemName : String) : mappingStage itemName [] = none := by
  unfold mappingStage
  cases lookupMapping itemName with
  | none => rfl
  | some pms => exact mappingStage_firstHit_nil pms

theorem dashPartStage_firstHit_nil :
    ∀ parts : List String, dashPartStage.firstHit [] parts = none := by
  intro parts
  induction parts with
  | nil => rfl
  | cons part rest ih =>
      by_cases h : 3 ≤ part.length <;>
        simp [dashPartStage.firstHit, h, List.find?] <;> exact ih

theorem semanticStage_firstHit_nil (itemName : String) :
    ∀ kws : List (String × List String), semanticStage.firstHit itemName [] kws = none := by
  intro kws
  induction kws with
  | nil => rfl
  | cons kw rest ih =>
      cases h : strIn kw.1 itemName <;>
        simp [semanticStage.firstHit, h, List.find?] <;> exact ih

theorem similarityRatio_nonneg (a b : String) : 0 ≤ similarityRatio a b := by
  unfold similarityRatio
  dsimp only
  split
  · exact zero_le_one
  · exact div_nonneg (by positivity) (Nat.cast_nonneg _)

theorem weightedScore_nonneg (itemName t : String) : 0 ≤ weightedScore itemName t := by
  unfold weightedScore
  refine add_nonneg (add_nonneg (add_nonneg ?_ ?_) ?_) ?_
  · refine mul_nonneg ?_ (by norm_num)
    split
    · exact div_nonneg (Nat.cast_nonneg _) (Nat.cast_nonneg _)
    · exact le_refl 0
  · exact mul_nonneg (similarityRatio_nonneg _ _) (by norm_num)
  · split <;> norm_num
  · split
    · split <;> norm_num
    · exact le_refl 0

theorem eligible_normalize_length {t : String} (h : eligible t = true) :
    5 ≤ (normalize t).length := by
  unfold eligible at h
  rw [Bool.and_eq_true] at h
  exact of_decide_eq_true h.1

theorem eligible_ne_empty {t : String} (h : eligible t = true) : ¬t.isEmpty := by
  have h5 := eligible_normalize_length h
  intro he
  rw [String.isEmpty_iff] at he
  subst he
  simp [normalize, stripChars, lowerChars, collapseWs, String.length] at h5

theorem foldl_bestStep_spec (itemName : String) :
    ∀ (texts : List String) (acc : ℚ × Option String),
      (texts.foldl (bestStep itemName) acc = acc ∧
        ∀ g ∈ texts, eligible g = true → weightedScore itemName g ≤ acc.1) ∨
      (∃ pre h post, texts = pre ++ h :: post ∧ eligible h = true ∧
        acc.1 < weightedScore itemName h ∧
        texts.foldl (bestStep itemName) acc = (weightedScore itemName h, some h) ∧
        (∀ g ∈ pre, eligible g = true →
          weightedScore itemName g < weightedScore itemName h) ∧
        (∀ g ∈ post, eligible g = true →
          weightedScore itemName g ≤ weightedScore itemName h)) := by
  intro texts
  induction texts with
  | nil => intro acc; left; exact ⟨rfl, by simp⟩
  | cons t rest ih =>
      intro acc
      by_cases helig : eligible t = true
      · by_cases hscore : acc.1 < weightedScore itemName t
        · have hstep : bestStep itemName acc t = (weightedScore itemName t, some t) := by
            unfold bestStep; rw [if_pos helig, if_pos hscore]
          rcases ih (weightedScore itemName t, some t) with
            ⟨heq, hall⟩ | ⟨pre, h, post, hsplit, he, hlt, heq, hpre, hpost⟩
          · right
            refine ⟨[], t, rest, rfl, helig, hscore, ?_, by simp, ?_⟩
            · rw [List.foldl_cons, hstep, heq]
            · intro g hg hge; exact hall g hg hge
          · right
            refine ⟨t :: pre, h, post, by simp [hsplit], he, lt_trans hscore hlt, ?_, ?_, hpost⟩
            · rw [List.foldl_cons, hstep, heq]
            · intro g hg hge
              rcases List.mem_cons.mp hg with rfl | hg2
              · exact hlt
              · exact hpre g hg2 hge
        · have hstep : bestStep itemName acc t = acc := by
            unfold bestStep; rw [if_pos helig, if_neg hscore]
          rcases ih acc with
            ⟨heq, hall⟩ | ⟨pre, h, post, hsplit, he, hlt, heq, hpre, hpost⟩
          · left
            constructor
            · rw [List.foldl_cons, hstep, heq]
            · intro g hg hge
              rcases List.mem_cons.mp hg with rfl | hg2
              · exact le_of_not_lt hscore
              · exact hall g hg2 hge
          · right
            refine ⟨t :: pre, h, post, by simp [hsplit], he, hlt, ?_, ?_, hpost⟩
            · rw [List.foldl_cons, hstep, heq]
            · intro g hg hge
              rcases List.mem_cons.mp hg with rfl | hg2
              · exact lt_of_le_of_lt (le_of_not_lt hscore) hlt
              · exact hpre g hg2 hge
      · have hstep : bestStep itemName acc t = acc := by
          unfold bestStep; rw [if_neg helig]
        rcases ih acc with
          ⟨heq, hall⟩ | ⟨pre, h, post, hsplit, he, hlt, heq, hpre, hpost⟩
        · left
          constructor
          · rw [List.foldl_cons, hstep, heq]
          · intro g hg hge
            rcases List.mem_cons.mp hg with rfl | hg2
            · exact absurd hge helig
            · exact hall g hg2 hge
        · right
          refine ⟨t :: pre, h, post, by simp [hsplit], he, hlt, ?_, ?_, hpost⟩
          · rw [List.foldl_cons, hstep, heq]
          · intro g hg hge
            rcases List.mem_cons.mp hg with rfl | hg2
            · exact absurd hge helig
            · exact hpre g hg2 hge

theorem weightedBest_some_spec (itemName : String) (texts : List String) (s : ℚ)
    (h : String) (hw : weightedBest itemName texts = (s, some h)) :
    ∃ pre post, texts = pre ++ h :: post ∧ eligible h = true ∧
      weightedScore itemName h = s ∧ 0 < s ∧
      (∀ g ∈ pre, eligible g = true → weightedScore itemName g < s) ∧
      (∀ g ∈ post, eligible g = true → weightedScore itemName g ≤ s) := by
  unfold weightedBest at hw
  rcases foldl_bestStep_spec itemName texts (0, none) with
    ⟨heq, _⟩ | ⟨pre, h', post, hsplit, he, hlt, heq, hpre, hpost⟩
  · rw [heq] at hw
    exact absurd (congrArg Prod.snd hw) (by simp)
  · rw [heq] at hw
    have hs : weightedScore itemName h' = s := congrArg Prod.fst hw
    have hh : h' = h := by
      have := congrArg Prod.snd hw
      simpa using this
    subst hh
    refine ⟨pre, post, hsplit, he, hs, ?_, ?_, ?_⟩
    · rw [← hs]; exact hlt
    · intro g hg hge; rw [← hs]; exact hpre g hg hge
    · intro g hg hge; rw [← hs]; exact hpost g hg hge

theorem weightedBest_none_spec (itemName : String) (texts : List String) (s : ℚ)
    (hw : weightedBest itemName texts = (s, none)) :
    ∀ g ∈ texts, eligible g = true → weightedScore itemName g ≤ 0 := by
  unfold weightedBest at hw
  rcases foldl_bestStep_spec itemName texts (0, none) with
    ⟨heq, hall⟩ | ⟨pre, h', post, hsplit, he, hlt, heq, hpre, hpost⟩
  · exact hall
  · rw [heq] at hw
    exact absurd (congrArg Prod.snd hw) (by simp)

theorem le_maxWeightedScore (itemName : String) :
    ∀ (texts : List String) (g : String), g ∈ texts → eligible g = true →
      weightedScore itemName g ≤ maxWeightedScore itemName texts := by
  intro texts
  induction texts with
  | nil => intro g hg; exact absurd hg (List.not_mem_nil g)
  | cons t rest ih =>
      intro g hg hge
      rcases List.mem_cons.mp hg with rfl | hg2
      · rw [maxWeightedScore, if_pos hge]
        exact le_max_left _ _
      · unfold maxWeightedScore
        split
        · exact le_trans (ih g hg2 hge) (le_max_right _ _)
        · exact ih g hg2 hge

theorem maxWeightedScore_le (itemName : String) :
    ∀ (texts : List String) (s : ℚ), 0 ≤ s →
      (∀ g ∈ texts, eligible g = true → weightedScore itemName g ≤ s) →
      maxWeightedScore itemName texts ≤ s := by
  intro texts
  induction texts with
  | nil => intro s hs _; exact hs
  | cons t rest ih =>
      intro s hs hall
      unfold maxWeightedScore
      split
      · next helig =>
          exact max_le (hall t (List.mem_cons_self t rest) helig)
            (ih s hs fun g hg hge => hall g (List.mem_cons_of_mem t hg) hge)
      · exact ih s hs fun g hg hge => hall g (List.mem_cons_of_mem t hg) hge

theorem maxWeightedScore_nonneg (itemName : String) (texts : List String) :
    0 ≤ maxWeightedScore itemName texts := by
  induction texts with
  | nil => exact le_refl 0
  | cons t rest ih =>
      unfold maxWeightedScore
      split
      · exact le_trans ih (le_max_right _ _)
      · exact ih

theorem someOrElse {α : Type} (a : α) (f : Unit → Option α) : (some a).orElse f = some a := rfl

theorem noneOrElse {α : Type} (f : Unit → Option α) : (none : Option α).orElse f = f () := rfl

/-! ### Claim C1 -/

/-- Claim C1, counterexample: the claim states that whenever some heading's
normalized text contains the normalized label, the first such heading is
returned.  For the label `"ACTAMT"` — one of the ten `element_mappings` keys —
with headings `["x Amount y", "z actamt w"]`, only the second heading contains
the normalized label, yet the matcher returns the first heading via the
synonym mapping stage, which runs before the exact-containment stage. -/
theorem c1_counterexample :
    findHeadingForItemName "ACTAMT" ["x Amount y", "z actamt w"] (2/5) = some "x Amount y" ∧
    strIn (normalize "ACTAMT") (normalize "z actamt w") = true ∧
    strIn (normalize "ACTAMT") (normalize "x Amount y") = false := by
  refine ⟨?_, by decide, by decide⟩
  decide

/-- Claim C1, amended: for every non-empty label that is NOT one of the ten
`element_mappings` keys, and every non-empty heading list in which some
heading's normalized (stripped) text contains the normalized label as a
substring, the matcher returns the first such heading in document order, for
every threshold value. -/
theorem c1_exact_containment (itemName : String) (headings : List String) (t : ℚ)
    (hkey : itemName ∉ elementMappings.map Prod.fst)
    (hne : itemName ≠ "") (hhs : headings ≠ [])
    (hex : ∃ g ∈ headings, strIn (normalize itemName) (normalize (pyStrip g)) = true) :
    findHeadingForItemName itemName headings t =
      (headings.map pyStrip).find? (fun x => strIn (normalize itemName) (normalize x)) ∧
    ((headings.map pyStrip).find? (fun x => strIn (normalize itemName) (normalize x))).isSome := by
  have hmap : mappingStage itemName (headings.map pyStrip) = none := by
    unfold mappingStage
    rw [lookupMapping_eq_none itemName hkey]
  have hfind : ((headings.map pyStrip).find?
      (fun x => strIn (normalize itemName) (normalize x))).isSome := by
    rw [List.find?_isSome]
    obtain ⟨g, hg, hp⟩ := hex
    exact ⟨pyStrip g, List.mem_map.mpr ⟨g, hg, rfl⟩, hp⟩
  obtain ⟨x, hx⟩ := Option.isSome_iff_exists.mp hfind
  refine ⟨?_, hfind⟩
  unfold findHeadingForItemName preStages exactStage
  simp only [hmap, noneOrElse, someOrElse, hx]

/-- Claim C1, witness: a concrete application of the amended theorem. -/
theorem c1_witness :
    findHeadingForItemName "abc" ["zz", "xx abc yy"] (2/5) = some "xx abc yy" := by
  have h := c1_exact_containment "abc" ["zz", "xx abc yy"] (2/5)
    (by decide) (by decide) (by decide) ⟨"xx abc yy", by decide, by decide⟩
  rw [h.1]
  decide

theorem weightedBest_fst_eq_max (itemName : String) (texts : List String) (s : ℚ)
    (h : String) (hw : weightedBest itemName texts = (s, some h)) :
    s = maxWeightedScore itemName texts := by
  obtain ⟨pre, post, hsplit, helig, hsc, hpos, hpre, hpost⟩ :=
    weightedBest_some_spec itemName texts s h hw
  have hall : ∀ g ∈ texts, eligible g = true → weightedScore itemName g ≤ s := by
    intro g hg hge
    rw [hsplit] at hg
    rcases List.mem_append.mp hg with hg1 | hg2
    · exact le_of_lt (hpre g hg1 hge)
    · rcases List.mem_cons.mp hg2 with rfl | hg3
      · exact le_of_eq hsc
      · exact hpost g hg3 hge
  have h1 : maxWeightedScore itemName texts ≤ s :=
    maxWeightedScore_le itemName texts s (le_of_lt hpos) hall
  have h2 : s ≤ maxWeightedScore itemName texts := by
    rw [← hsc]
    refine le_maxWeightedScore itemName texts h ?_ helig
    rw [hsplit]
    exact List.mem_append.mpr (Or.inr (List.mem_cons_self _ _))
  exact le_antisymm h2 h1

theorem maxWeightedScore_eq_zero_of_none (itemName : String) (texts : List String)
    (s : ℚ) (hw : weightedBest itemName texts = (s, none)) :
    maxWeightedScore itemName texts = 0 := by
  have hall := weightedBest_none_spec itemName texts s hw
  exact le_antisymm (maxWeightedScore_le itemName texts 0 (le_refl 0) hall)
    (maxWeightedScore_nonneg itemName texts)

/-! ### Claim C2 -/

/-- Claim C2, counterexample: the claim states that when the weighted-score
stage is reached and the best score is below the threshold, the matcher
returns "no match".  For the label `"zzz"` and heading `["Qqqq E12 Wwww"]`
(which reaches the weighted stage with maximal score `0 < 2/5`), the matcher
returns the heading anyway, through the last-resort E-number fallback. -/
theorem c2_counterexample :
    preStages "zzz" ["Qqqq E12 Wwww"] = none ∧
    (tokenize "zzz").isEmpty = false ∧
    maxWeightedScore "zzz" ["Qqqq E12 Wwww"] < 2/5 ∧
    findHeadingForItemName "zzz" ["Qqqq E12 Wwww"] (2/5) = some "Qqqq E12 Wwww" := by
  refine ⟨by decide, by decide, ?_, ?_⟩ <;> with_unfolding_all decide

/-- Claim C2, amended: in the weighted-score fallback stage (stages 0–5
yielded nothing and the label has word tokens), the matcher returns a heading
attaining the maximal weighted score when that maximum is positive and at
least the threshold; otherwise it returns the first heading containing an
E-number, if any, and "no match" only when there is none. -/
theorem c2_weighted_fallback (itemName : String) (headings : List String) (t : ℚ)
    (hpre : preStages itemName (headings.map pyStrip) = none)
    (htok : ¬(tokenize itemName).isEmpty) :
    ((0 < maxWeightedScore itemName (headings.map pyStrip) ∧
        t ≤ maxWeightedScore itemName (headings.map pyStrip)) →
      ∃ g ∈ headings.map pyStrip, eligible g = true ∧
        weightedScore itemName g = maxWeightedScore itemName (headings.map pyStrip) ∧
        findHeadingForItemName itemName headings t = some g) ∧
    ((maxWeightedScore itemName (headings.map pyStrip) < t ∨
        maxWeightedScore itemName (headings.map pyStrip) = 0) →
      findHeadingForItemName itemName headings t =
        eNumberFallback (headings.map pyStrip)) := by
  have hred : findHeadingForItemName itemName headings t =
      weightedStage itemName (headings.map pyStrip) t := by
    unfold findHeadingForItemName
    simp only [hpre, noneOrElse]
  have htok' : ¬((tokenize itemName).isEmpty = true) := htok
  cases hwb : weightedBest itemName (headings.map pyStrip) with
  | mk s ob =>
    cases ob with
    | none =>
      have hmax0 : maxWeightedScore itemName (headings.map pyStrip) = 0 :=
        maxWeightedScore_eq_zero_of_none itemName (headings.map pyStrip) s hwb
      have hstage : weightedStage itemName (headings.map pyStrip) t =
          eNumberFallback (headings.map pyStrip) := by
        unfold weightedStage
        rw [if_neg htok']
        dsimp only
        rw [hwb]
        simp [Option.any]
      constructor
      · rintro ⟨hposM, _⟩
        rw [hmax0] at hposM
        exact absurd hposM (lt_irrefl 0)
      · intro _
        rw [hred, hstage]
    | some h =>
      obtain ⟨pre2, post2, hsplit, helig, hsc, hpos, hpre2, hpost2⟩ :=
        weightedBest_some_spec itemName (headings.map pyStrip) s h hwb
      have hseq : s = maxWeightedScore itemName (headings.map pyStrip) :=
        weightedBest_fst_eq_max itemName (headings.map pyStrip) s h hwb
      have hne' : h.isEmpty = false := by
        cases hne : h.isEmpty
        · rfl
        · exact absurd hne (eligible_ne_empty helig)
      have hmem : h ∈ headings.map pyStrip := by
        rw [hsplit]
        exact List.mem_append.mpr (Or.inr (List.mem_cons_self _ _))
      have hstage : ∀ u : ℚ, u ≤ s →
          weightedStage itemName (headings.map pyStrip) u = some h := by
        intro u hu
        unfold weightedStage
        rw [if_neg htok']
        dsimp only
        rw [hwb]
        have hcond : (((some h).any fun bm => !bm.isEmpty) &&
            decide (u ≤ (s, some h).1)) = true := by
          simp [Option.any, hne', hu]
        rw [if_pos hcond]
      have hfall : ∀ u : ℚ, s < u →
          weightedStage itemName (headings.map pyStrip) u =
            eNumberFallback (headings.map pyStrip) := by
        intro u hu
        unfold weightedStage
        rw [if_neg htok']
        dsimp only
        rw [hwb]
        have hcond : ¬((((some h).any fun bm => !bm.isEmpty) &&
            decide (u ≤ (s, some h).1)) = true) := by
          simp only [Option.any, Bool.not_eq_true', hne', Bool.not_false,
            Bool.true_and, decide_eq_true_eq]
          exact not_le_of_lt hu
        rw [if_neg hcond]
      constructor
      · rintro ⟨hposM, hle⟩
        refine ⟨h, hmem, helig, by rw [hsc, hseq], ?_⟩
        rw [hred]
        exact hstage t (by rw [hseq]; exact hle)
      · intro hcase
        rcases hcase with hlt | h0
        · rw [hred]
          exact hfall t (by rw [hseq]; exact hlt)
        · rw [← hseq] at h0
          rw [h0] at hpos
          exact absurd hpos (lt_irrefl 0)

/-- Claim C2, witness: a concrete application of the amended theorem, at a
label and heading list that reach the weighted stage with maximal score
`7/20` and threshold `1/5`. -/
theorem c2_witness :
    ∃ g ∈ (["alpha gamma"] : List String).map pyStrip, eligible g = true ∧
      weightedScore "alpha beta" g =
        maxWeightedScore "alpha beta" ((["alpha gamma"] : List String).map pyStrip) ∧
      findHeadingForItemName "alpha beta" ["alpha gamma"] (1/5) = some g :=
  (c2_weighted_fallback "alpha beta" ["alpha gamma"] (1/5) (by decide)
    (by decide)).1 ⟨by with_unfolding_all decide, by with_unfolding_all decide⟩

/-! ### Claim C3 -/

/-- Claim C3, counterexample: the claim states that an empty label always
yields "no match", but the empty normalized label is a substring of every
normalized heading (Python's `"" in s` is true), so the exact-containment
stage returns the first heading. -/
theorem c3_counterexample :
    findHeadingForItemName "" ["Revenue"] (2/5) = some "Revenue" := by
  decide

/-- Claim C3, amended: for every label and threshold the matcher applied to an
empty heading list returns "no match"; the matcher applied to an empty label
with a non-empty heading list instead returns the first (stripped) heading,
because the empty normalized label is contained in every normalized
heading. -/
theorem c3_empty_inputs :
    (∀ (itemName : String) (t : ℚ), findHeadingForItemName itemName [] t = none) ∧
    (∀ (g : String) (gs : List String) (t : ℚ),
      findHeadingForItemName "" (g :: gs) t = some (pyStrip g)) := by
  constructor
  · intro itemName t
    unfold findHeadingForItemName preStages exactStage eNumberStage dashPartStage
      partsStage semanticStage weightedStage weightedBest eNumberFallback
    simp only [List.map_nil, List.find?_nil, List.foldl_nil]
    rw [mappingStage_nil, noneOrElse]
    cases eNumberOf itemName <;>
      simp [dashPartStage_firstHit_nil, semanticStage_firstHit_nil,
        Option.orElse, Option.any]
  · intro g gs t
    have hmap : mappingStage "" (pyStrip g :: gs.map pyStrip) = none := by
      unfold mappingStage
      rw [show lookupMapping "" = none from by decide]
    have hexact : exactStage "" (pyStrip g :: gs.map pyStrip) = some (pyStrip g) := by
      unfold exactStage
      have hp : strIn (normalize "") (normalize (pyStrip g)) = true := strIn_empty_left _
      exact List.find?_cons_of_pos _ hp
    unfold findHeadingForItemName preStages
    simp only [List.map_cons, hmap, noneOrElse, hexact, someOrElse]

/-! ### Claim C4 -/

/-- Claim C4, counterexample: the claim covers identifier codes matching
`[A-Z]\d+`, but the source only searches for `E\d+`.  The label
`"QQQ F123"` contains the identifier code `"F123"`, the heading `"F123 blah"`
contains that code verbatim, no exact-containment match fires, and yet the
matcher returns "no match" (at threshold `1`). -/
theorem c4_counterexample :
    findHeadingForItemName "QQQ F123" ["F123 blah"] 1 = none ∧
    strIn "F123" "F123 blah" = true ∧
    strIn (normalize "QQQ F123") (normalize "F123 blah") = false := by
  refine ⟨?_, by decide, by decide⟩
  with_unfolding_all decide

/-- Claim C4, amended: restricted to codes of the letter `E` followed by
digits (the `E\d+` pattern of the source).  If the label contains an
E-number, no heading's normalized text contains the normalized label, and
some heading's raw (stripped) text contains that E-number, the matcher
returns the first such heading in document order, for every threshold. -/
theorem c4_eNumber_match (itemName : String) (headings : List String) (t : ℚ)
    (en : String) (hen : eNumberOf itemName = some en)
    (hnoexact : ∀ g ∈ headings, strIn (normalize itemName) (normalize (pyStrip g)) = false)
    (hex : ∃ g ∈ headings, strIn en (pyStrip g) = true) :
    findHeadingForItemName itemName headings t =
      (headings.map pyStrip).find? (fun x => strIn en x) ∧
    ((headings.map pyStrip).find? (fun x => strIn en x)).isSome := by
  have hmap : mappingStage itemName (headings.map pyStrip) = none := by
    unfold mappingStage
    rw [lookupMapping_eq_none_of_eNumber itemName en hen]
  have hexact : exactStage itemName (headings.map pyStrip) = none := by
    unfold exactStage
    rw [List.find?_eq_none]
    intro x hx
    obtain ⟨g, hg, rfl⟩ := List.mem_map.mp hx
    rw [hnoexact g hg]
    exact Bool.false_ne_true
  have hfind : ((headings.map pyStrip).find? (fun x => strIn en x)).isSome := by
    rw [List.find?_isSome]
    obtain ⟨g, hg, hp⟩ := hex
    exact ⟨pyStrip g, List.mem_map.mpr ⟨g, hg, rfl⟩, hp⟩
  obtain ⟨x, hx⟩ := Option.isSome_iff_exists.mp hfind
  refine ⟨?_, hfind⟩
  unfold findHeadingForItemName preStages eNumberStage
  rw [hen]
  simp only [hmap, hexact, noneOrElse, hx, someOrElse]

/-- Claim C4, witness: a concrete application of the amended theorem. -/
theorem c4_witness :
    findHeadingForItemName "Item E42 Thing" ["Pp E42 Qq"] (2/5) = some "Pp E42 Qq" := by
  have h := c4_eNumber_match "Item E42 Thing" ["Pp E42 Qq"] (2/5) "E42"
    (by decide) (by decide) ⟨"Pp E42 Qq", by decide, by decide⟩
  rw [h.1]
  decide

/-! ### Claim C5 -/

/-- Claim C5, counterexample to the "same heading or one scoring no worse"
clause: for the label `"E8 a"` with headings `["E9 a", "a mm nn"]`, threshold
`3/10` returns the E-number fallback heading `"E9 a"` (formula score `3/8`),
while the lower threshold `2/10` returns the best-scan heading `"a mm nn"`,
whose score `9/44` is strictly lower — a different and worse-scoring
heading. -/
theorem c5_counterexample :
    findHeadingForItemName "E8 a" ["E9 a", "a mm nn"] (3/10) = some "E9 a" ∧
    findHeadingForItemName "E8 a" ["E9 a", "a mm nn"] (2/10) = some "a mm nn" ∧
    weightedScore "E8 a" "a mm nn" < weightedScore "E8 a" "E9 a" := by
  refine ⟨?_, ?_, ?_⟩ <;> with_unfolding_all decide

/-- Claim C5, amended: if the matcher returns a heading at threshold `t`, it
returns some heading at every threshold below `t` — possibly a different one,
which may score strictly lower (lowering the threshold can move the result
from the E-number fallback to the recorded best heading).  The threshold is
only consulted in the final best-score comparison, whose failure branch still
returns a heading whenever the E-number fallback is nonempty. -/
theorem c5_threshold_monotone (itemName : String) (headings : List String)
    (t t' : ℚ) (h : String) (hlt : t' < t)
    (hsome : findHeadingForItemName itemName headings t = some h) :
    ∃ h', findHeadingForItemName itemName headings t' = some h' := by
  unfold findHeadingForItemName at hsome ⊢
  dsimp only at hsome ⊢
  cases hp : preStages itemName (headings.map pyStrip) with
  | some x =>
      rw [hp, someOrElse] at hsome
      rw [someOrElse]
      exact ⟨h, hsome⟩
  | none =>
      rw [hp, noneOrElse] at hsome
      rw [noneOrElse]
      unfold weightedStage at hsome ⊢
      by_cases htok : ((tokenize itemName).isEmpty = true)
      · rw [if_pos htok] at hsome
        exact absurd hsome (Option.some_ne_none h).symm
      · rw [if_neg htok] at hsome ⊢
        dsimp only at hsome ⊢
        cases hwb : weightedBest itemName (headings.map pyStrip) with
        | mk s ob =>
          rw [hwb] at hsome
          dsimp only at hsome ⊢
          by_cases hcond : ((ob.any fun bm => !bm.isEmpty) && decide (t ≤ s)) = true
          · rw [if_pos hcond] at hsome
            rw [Bool.and_eq_true, decide_eq_true_eq] at hcond
            have hcond' : ((ob.any fun bm => !bm.isEmpty) && decide (t' ≤ s)) = true := by
              rw [Bool.and_eq_true, decide_eq_true_eq]
              exact ⟨hcond.1, le_trans (le_of_lt hlt) hcond.2⟩
            rw [if_pos hcond']
            exact ⟨h, hsome⟩
          · rw [if_neg hcond] at hsome
            by_cases hcond' : ((ob.any fun bm => !bm.isEmpty) && decide (t' ≤ s)) = true
            · rw [if_pos hcond']
              rw [Bool.and_eq_true] at hcond'
              cases ob with
              | none => exact absurd hcond'.1 (by simp [Option.any])
              | some bm => exact ⟨bm, rfl⟩
            · rw [if_neg hcond']
              exact ⟨h, hsome⟩

/-- Claim C5, witness: a concrete application at thresholds `1/2 > 1/5`. -/
theorem c5_witness :
    ∃ h', findHeadingForItemName "abc" ["xx abc yy"] (1/5) = some h' :=
  c5_threshold_monotone "abc" ["xx abc yy"] (1/2) (1/5) "xx abc yy"
    (by norm_num) (by decide)

/-! ### Claim C7 -/

/-- Claim C7, counterexample: the claim states that a heading whose
normalized text is shorter than 5 characters is never returned by the
weighted-score stage, but the stage's last-resort E-number branch does return
one: the label `"zzz"` with heading `["E12"]` reaches the weighted stage
(stages 0–5 yield nothing and the label has word tokens), the heading is
excluded from scoring (normalized length 3), yet the matcher returns it. -/
theorem c7_counterexample :
    preStages "zzz" ["E12"] = none ∧ (tokenize "zzz").isEmpty = false ∧
    (normalize "E12").length < 5 ∧
    findHeadingForItemName "zzz" ["E12"] (2/5) = some "E12" := by
  refine ⟨by decide, by decide, by decide, ?_⟩
  with_unfolding_all decide

/-- Claim C7, amended: headings whose normalized text is shorter than 5
characters are excluded from scoring — the best-match scan never records
one — so when the weighted-score stage returns such a heading it can only be
through the last-resort E-number fallback (the first heading containing an
E-number), never as the scored best match. -/
theorem c7_short_heading_only_fallback (itemName : String) (texts : List String)
    (t : ℚ) (h : String) (hw : weightedStage itemName texts t = some h)
    (hshort : (normalize h).length < 5) :
    (weightedBest itemName texts).2 ≠ some h ∧ eNumberFallback texts = some h := by
  have hnotbest : (weightedBest itemName texts).2 ≠ some h := by
    intro hbest
    cases hwb : weightedBest itemName texts with
    | mk s ob =>
      rw [hwb] at hbest
      dsimp only at hbest
      subst hbest
      obtain ⟨_, _, _, helig, _, _, _, _⟩ :=
        weightedBest_some_spec itemName texts s h hwb
      exact absurd (eligible_normalize_length helig) (not_le_of_lt hshort)
  refine ⟨hnotbest, ?_⟩
  unfold weightedStage at hw
  by_cases htok : ((tokenize itemName).isEmpty = true)
  · rw [if_pos htok] at hw
    exact absurd hw (fun hcontra => Option.noConfusion hcontra)
  · rw [if_neg htok] at hw
    dsimp only at hw
    by_cases hcond : (((weightedBest itemName texts).2.any fun bm => !bm.isEmpty) &&
        decide (t ≤ (weightedBest itemName texts).1)) = true
    · rw [if_pos hcond] at hw
      exact absurd hw hnotbest
    · rw [if_neg hcond] at hw
      exact hw

/-- Claim C7, witness: a concrete application of the amended theorem at the
label `"zzz"` and heading `["E12"]`. -/
theorem c7_witness :
    (weightedBest "zzz" ["E12"]).2 ≠ some "E12" ∧
      eNumberFallback ["E12"] = some "E12" :=
  c7_short_heading_only_fallback "zzz" ["E12"] (2/5) "E12"
    (by with_unfolding_all decide) (by decide)

/-! ### Claim C8 -/

/-- Claim C8: first-in-document-order tie-break of the weighted-score scan.
The recorded best heading is the first eligible heading attaining the maximal
score: every earlier eligible heading scores strictly less (so a later heading
of equal score never replaces the current best), and every later eligible
heading scores no more. -/
theorem c8_first_best_wins (itemName : String) (texts : List String)
    (s : ℚ) (h : String) (hw : weightedBest itemName texts = (s, some h)) :
    ∃ pre post, texts = pre ++ h :: post ∧ eligible h = true ∧
      weightedScore itemName h = s ∧ 0 < s ∧
      (∀ g ∈ pre, eligible g = true → weightedScore itemName g < s) ∧
      (∀ g ∈ post, eligible g = true → weightedScore itemName g ≤ s) :=
  weightedBest_some_spec itemName texts s h hw

/-- Claim C8, witness: a concrete application at two headings of equal score
`17/20`, where the scan keeps the first. -/
theorem c8_witness :
    ∃ pre post, (["delta echo one", "delta echo two"] : List String) =
        pre ++ "delta echo one" :: post ∧ eligible "delta echo one" = true ∧
      weightedScore "delta echo" "delta echo one" = 17/20 ∧ (0 : ℚ) < 17/20 ∧
      (∀ g ∈ pre, eligible g = true → weightedScore "delta echo" g < 17/20) ∧
      (∀ g ∈ post, eligible g = true → weightedScore "delta echo" g ≤ 17/20) :=
  c8_first_best_wins "delta echo" ["delta echo one", "delta echo two"] (17/20)
    "delta echo one" (by with_unfolding_all decide)

/-! ### Claim C9 -/

/-- Claim C9, counterexample: the claim states that the label
`"Zephyr Quotient"` with headings `["Revenue", "Expenditures"]` yields "no
match" at every threshold at least `1/10`.  At threshold exactly `1/10` the
weighted stage scores `"Expenditures"` at `1/9 ≥ 1/10` (token overlap `0`,
similarity ratio `10/27`, score `(10/27) * (3/10) = 1/9`) and returns it. -/
theorem c9_counterexample :
    findHeadingForItemName "Zephyr Quotient" ["Revenue", "Expenditures"] (1/10) =
      some "Expenditures" := by
  with_unfolding_all decide

/-- Claim C9, amended: the scenario holds only above the attained best score
`1/9`: for every threshold strictly greater than `1/9`, the matcher returns
"no match" on this label and heading list. -/
theorem c9_no_match_above (t : ℚ) (ht : 1/9 < t) :
    findHeadingForItemName "Zephyr Quotient" ["Revenue", "Expenditures"] t = none := by
  have hpre : preStages "Zephyr Quotient"
      (["Revenue", "Expenditures"].map pyStrip) = none := by decide
  have hwb : weightedBest "Zephyr Quotient" (["Revenue", "Expenditures"].map pyStrip) =
      (1/9, some "Expenditures") := by with_unfolding_all decide
  unfold findHeadingForItemName
  dsimp only
  rw [hpre, noneOrElse]
  unfold weightedStage
  rw [if_neg (show ¬((tokenize "Zephyr Quotient").isEmpty = true) by decide)]
  dsimp only
  rw [hwb]
  dsimp only
  have hcond : ¬((((some "Expenditures").any fun bm => !bm.isEmpty) &&
      decide (t ≤ 1/9)) = true) := by
    simp only [Option.any, Bool.and_eq_true, decide_eq_true_eq, not_and]
    intro _
    exact not_le_of_lt ht
  rw [if_neg hcond]
  decide

/-- Claim C9, witness for the amended theorem, at threshold `1/2`. -/
theorem c9_witness :
    findHeadingForItemName "Zephyr Quotient" ["Revenue", "Expenditures"] (1/2) = none :=
  c9_no_match_above (1/2) (by norm_num)

/-! ### Claim C10 -/

/-- Claim C10: when the label is one of the ten `element_mappings` keys and
some heading contains one of its synonym phrases (case-insensitively), the
matcher resolves through the mapping table — the result is a heading that
contains a synonym of the key (even when a different heading contains the
label itself verbatim), for every threshold. -/
theorem c10_mapping_preempts (itemName : String) (pms : List String)
    (headings : List String) (t : ℚ)
    (hkey : lookupMapping itemName = some pms)
    (hex : ∃ pm ∈ pms, ∃ g ∈ headings, strIn (pyLower pm) (pyLower (pyStrip g)) = true) :
    ∃ h, findHeadingForItemName itemName headings t = some h ∧
      ∃ pm ∈ pms, strIn (pyLower pm) (pyLower h) = true := by
  have hmain : ∃ h, mappingStage.firstHit (headings.map pyStrip) pms = some h ∧
      ∃ pm ∈ pms, strIn (pyLower pm) (pyLower h) = true := by
    clear hkey
    induction pms with
    | nil =>
        obtain ⟨pm, hpm, _⟩ := hex
        exact absurd hpm (List.not_mem_nil pm)
    | cons pm0 rest ih =>
        unfold mappingStage.firstHit
        cases hfind : (headings.map pyStrip).find?
            (fun x => strIn (pyLower pm0) (pyLower x)) with
        | some x =>
            refine ⟨x, rfl, pm0, List.mem_cons_self _ _, ?_⟩
            have hx := List.find?_some hfind
            exact hx
        | none =>
            have hex2 : ∃ pm ∈ rest, ∃ g ∈ headings,
                strIn (pyLower pm) (pyLower (pyStrip g)) = true := by
              obtain ⟨pm, hpm, g, hg, hsub⟩ := hex
              rcases List.mem_cons.mp hpm with rfl | hpm2
              · exfalso
                have := List.find?_eq_none.mp hfind (pyStrip g)
                  (List.mem_map.mpr ⟨g, hg, rfl⟩)
                exact this hsub
              · exact ⟨pm, hpm2, g, hg, hsub⟩
            obtain ⟨h, hh, hprop⟩ := ih hex2
            refine ⟨h, hh, ?_⟩
            obtain ⟨pm, hpm, hsub⟩ := hprop
            exact ⟨pm, List.mem_cons_of_mem _ hpm, hsub⟩
  obtain ⟨h, hh, hprop⟩ := hmain
  refine ⟨h, ?_, hprop⟩
  have hmap : mappingStage itemName (headings.map pyStrip) = some h := by
    unfold mappingStage
    rw [hkey]
    exact hh
  unfold findHeadingForItemName preStages
  simp only [hmap, someOrElse]

/-- Claim C10, witness: label `"ACTAMT"`, where the first heading contains the
label verbatim but the matcher returns the second heading, which contains the
mapped synonym `"Amount"`. -/
theorem c10_witness :
    ∃ h, findHeadingForItemName "ACTAMT" ["The ACTAMT heading", "Total Amount"] (2/5) =
        some h ∧
      ∃ pm ∈ ["Actual Amount", "Amount", "E0774"],
        strIn (pyLower pm) (pyLower h) = true :=
  c10_mapping_preempts "ACTAMT" ["Actual Amount", "Amount", "E0774"]
    ["The ACTAMT heading", "Total Amount"] (2/5) (by decide) (by decide)
